import Mathlib

/-!
# Verification of the bashguard command-authorization core

A shallow embedding of the bashguard rule-evaluation engine:

* the configuration data model (`src/config/types.rs`),
* the semantic analyzer (`src/parser/semantic.rs`),
* the brush-adapter command extractor (`src/parser/brush_adapter.rs`),
* the rule matcher (`src/rules/matcher.rs`),
* the evaluator (`src/rules/evaluator.rs`),

together with theorems settling the stated properties of the system.

External effects (regular-expression compilation, glob compilation, and the
current working directory, all provided by third-party crates or the OS in the
Rust code) are modelled by an explicit environment record `MatchEnv` passed to
the matcher.  The brush-parser crate (tokenizer / AST builder / `unquote_str`)
is likewise external to the repository; its AST is embedded as the inductive
types below and `unquote_str` is modelled from the specification.
-/

namespace Bashguard

/-- Action to take for a command (`config/types.rs`, `enum Action`). -/
inductive Action where
  | allow
  | deny
  | prompt
deriving DecidableEq, Repr

/-- The decision made about a command (`rules/evaluator.rs`, `enum Decision`). -/
inductive Decision where
  | allow
  | deny (message : String)
  | prompt (message : String)
deriving DecidableEq, Repr

/-- A rule that matches commands and specifies an action
(`config/types.rs`, `struct Rule`). -/
structure Rule where
  program : Option String
  subcommands : List String
  subcommands_exact : Bool
  args_match : Option String
  args_regex : Option String
  flags_present : List String
  flags_absent : List String
  working_dir : Option String
  action : Action
  message : Option String
deriving DecidableEq, Repr

/-- Profile metadata (`config/types.rs`, `struct ProfileMetadata`). -/
structure ProfileMetadata where
  name : String
  description : Option String
deriving DecidableEq, Repr

/-- A named bundle of rules (`config/types.rs`, `struct Profile`). -/
structure Profile where
  profile : ProfileMetadata
  rules : List Rule
deriving DecidableEq, Repr

/-- Active profile names (`config/types.rs`, `struct ProfilesConfig`). -/
structure ProfilesConfig where
  builtins : List String
  custom : List String
deriving DecidableEq, Repr

/-- Global settings (`config/types.rs`, `struct Settings`). -/
structure Settings where
  default_action : Action
  log_decisions : Bool
deriving DecidableEq, Repr

/-- The main configuration structure (`config/types.rs`, `struct Config`). -/
structure Config where
  settings : Settings
  profiles : ProfilesConfig
  rules : List Rule
  loaded_profiles : List Profile
  available_profiles : List ProfileMetadata
deriving DecidableEq, Repr

/-- A parsed shell command with semantic information
(`parser/command.rs`, `struct ParsedCommand`, plus the `has_expansion` /
`has_substitution` fields populated by `parser/brush_adapter.rs`).
The Rust `HashSet<String>` of flags is modelled as a `Finset String`; the
`HashMap<String, String>` of environment assignments is modelled as an
association list with replace-on-duplicate-key insertion. -/
structure ParsedCommand where
  raw : String
  program : String
  subcommands : List String
  args : List String
  flags : Finset String
  is_piped : Bool
  has_redirect : Bool
  env_vars : List (String × String)
  has_expansion : Bool
  has_substitution : Bool
deriving DecidableEq


/-! ## Character-list models of Rust string primitives

Lean's built-in `String.startsWith` / `String.containsSubstr` / `String.trim`
are implemented on byte positions and do not reduce inside the kernel, so the
embedding uses these equivalent character-list definitions. -/

/-- Elementwise list-leading check over characters: models Rust
`str::starts_with` after `strStartsWith` wraps it. -/
def startsList : List Char → List Char → Bool
  | [], _ => true
  | _ :: _, [] => false
  | p :: ps, c :: cs => p = c && startsList ps cs

/-- Rust `str::starts_with`. -/
def strStartsWith (s pre : String) : Bool :=
  startsList pre.data s.data

/-- Substring occurrence over character lists. -/
def hasSubstring (pat : List Char) : List Char → Bool
  | [] => startsList pat []
  | c :: rest => startsList pat (c :: rest) || hasSubstring pat rest

/-- Rust `str::contains` with a string pattern. -/
def strContains (s pat : String) : Bool :=
  hasSubstring pat.data s.data

/-- Rust `input.trim().is_empty()`: true exactly when every character of the
input is whitespace (trimming whitespace from both ends leaves the empty
string iff the whole string is whitespace). -/
def trimIsEmpty (s : String) : Bool :=
  s.data.all (fun c => c.isWhitespace)

/-! ## Rule matcher (`src/rules/matcher.rs`) -/


/-- The external facilities consulted by `RuleMatcher::matches`:
`regex::Regex::new` + `is_match`, `glob::Pattern::new` + `matches`, and
`std::env::current_dir`.  A compilation result of `none` models an invalid
pattern (`Err` from the pattern constructor); `cwd = none` models a failing
`current_dir()` call. -/
structure MatchEnv where
  regexCompile : String → Option (String → Bool)
  globCompile : String → Option (String → Bool)
  cwd : Option String

namespace RuleMatcher

/-- The elementwise loop of the non-exact subcommand branch of
`RuleMatcher::matches`: every element of the rule's list must equal the
corresponding leading element of the command's list. -/
def leadsList : List String → List String → Bool
  | [], _ => true
  | _ :: _, [] => false
  | r :: rs, c :: cs => r = c && leadsList rs cs

/-- Check if a rule matches a parsed command (`RuleMatcher::matches`).
Each condition is checked in source order and any failure short-circuits
to `false`. -/
def «matches» (env : MatchEnv) (rule : Rule) (command : ParsedCommand) : Bool :=
  -- Check program
  (match rule.program with
   | some program => command.program = program
   | none => true) &&
  -- Check subcommands: the whole check is guarded by `!rule.subcommands.is_empty()`
  (if rule.subcommands.isEmpty then true
   else if rule.subcommands_exact then
     -- Exact match: command subcommands must equal rule subcommands
     command.subcommands = rule.subcommands
   else
     -- Prefix-style match: the rule's list must lead the command's list
     leadsList rule.subcommands command.subcommands) &&
  -- Check flags_present
  rule.flags_present.all (fun flag => flag ∈ command.flags) &&
  -- Check flags_absent
  rule.flags_absent.all (fun flag => flag ∉ command.flags) &&
  -- Check args_match (substring of the space-joined args)
  (match rule.args_match with
   | some pattern => strContains (String.intercalate " " command.args) pattern
   | none => true) &&
  -- Check args_regex: an invalid regular expression does not match
  (match rule.args_regex with
   | some pattern =>
     match env.regexCompile pattern with
     | some re => re (String.intercalate " " command.args)
     | none => false
   | none => true) &&
  -- Check working_dir (glob pattern).  The source wraps the whole check in
  -- `if let Ok(cwd) = std::env::current_dir()`: when the working directory is
  -- undeterminable the condition is skipped entirely.
  (match rule.working_dir with
   | some pattern =>
     match env.cwd with
     | some cwd =>
       match env.globCompile pattern with
       | some g => g cwd
       | none => false
     | none => true
   | none => true)

end RuleMatcher

/-! ## Evaluator (`src/rules/evaluator.rs`) -/

namespace Evaluator

/-- `Evaluator::make_decision`. -/
def make_decision (rule : Rule) : Decision :=
  match rule.action with
  | .allow => .allow
  | .deny => .deny (rule.message.getD "Blocked by rule")
  | .prompt => .prompt (rule.message.getD "Requires confirmation")

/-- The profile scanning loop of `Evaluator::evaluate_single_with_trace`:
for each loaded profile in order, return the first rule of that profile that
matches the command. -/
def firstProfileMatch (env : MatchEnv) (command : ParsedCommand) :
    List Profile → Option Rule
  | [] => none
  | p :: ps =>
    match p.rules.find? (fun rule => RuleMatcher.«matches» env rule command) with
    | some rule => some rule
    | none => firstProfileMatch env command ps

/-- `Evaluator::evaluate_single_with_trace`: custom config rules first, then
profile rules in profile order, then the default action. -/
def evaluate_single_with_trace (env : MatchEnv) (config : Config)
    (command : ParsedCommand) : Decision × Option Rule :=
  match config.rules.find? (fun rule => RuleMatcher.«matches» env rule command) with
  | some rule => (make_decision rule, some rule)
  | none =>
    match firstProfileMatch env command config.loaded_profiles with
    | some rule => (make_decision rule, some rule)
    | none =>
      match config.settings.default_action with
      | .allow => (.allow, none)
      | .deny => (.deny "Blocked by default policy", none)
      | .prompt => (.prompt "No matching rule found", none)

/-- The loop body of `Evaluate::evaluate_all_with_trace`: the running strictest
decision and matched rule, threaded through each command, updating only when a
strictly stricter decision appears and breaking once the running decision is a
Deny. -/
def evalAllGo (env : MatchEnv) (config : Config) :
    List ParsedCommand → Decision × Option Rule → Decision × Option Rule
  | [], acc => acc
  | command :: rest, (strictest, matched) =>
    let dr := evaluate_single_with_trace env config command
    -- Update to strictest decision: Deny > Prompt > Allow
    let acc' : Decision × Option Rule :=
      match strictest, dr.1 with
      | .allow, .deny m => (.deny m, dr.2)
      | .allow, .prompt m => (.prompt m, dr.2)
      | .prompt _, .deny m => (.deny m, dr.2)
      | _, _ => (strictest, matched)
    -- Short-circuit on Deny - can't get stricter
    match acc'.1 with
    | .deny _ => acc'
    | _ => evalAllGo env config rest acc'

/-- `Evaluator::evaluate_all_with_trace`. -/
def evaluate_all_with_trace (env : MatchEnv) (config : Config)
    (commands : List ParsedCommand) : Decision × Option Rule :=
  evalAllGo env config commands (.allow, none)

/-- `Evaluator::evaluate_all`. -/
def evaluate_all (env : MatchEnv) (config : Config)
    (commands : List ParsedCommand) : Decision :=
  (evaluate_all_with_trace env config commands).1

end Evaluator


/-! ## Semantic analyzer (`src/parser/semantic.rs`) -/

namespace SemanticAnalyzer

/-- Known programs and their subcommand patterns
(`parser/semantic.rs`, `struct ProgramInfo`).  The Rust `HashSet<&str>` of
known subcommand tokens is modelled as a list queried by membership. -/
structure ProgramInfo where
  max_subcommand_depth : Nat
  known_subcommands : List String
deriving DecidableEq, Repr

/-- The `known_subcommands` entry for `git` in `SemanticAnalyzer::new`. -/
def known_git : List String :=
  ["add",
   "am",
   "archive",
   "bisect",
   "blame",
   "branch",
   "bundle",
   "checkout",
   "cherry",
   "cherry-pick",
   "citool",
   "clean",
   "clone",
   "commit",
   "config",
   "describe",
   "diff",
   "difftool",
   "fetch",
   "format-patch",
   "gc",
   "grep",
   "gui",
   "help",
   "init",
   "log",
   "merge",
   "mergetool",
   "mv",
   "notes",
   "pull",
   "push",
   "rebase",
   "reflog",
   "remote",
   "reset",
   "restore",
   "revert",
   "rm",
   "shortlog",
   "show",
   "stash",
   "status",
   "submodule",
   "switch",
   "tag",
   "worktree",
   "set-url",
   "get-url",
   "show-ref",
   "update-ref",
   "apply",
   "drop",
   "list",
   "pop",
   "save",
   "clear",
   "prune",
   "update",
   "set-head",
   "rename",
   "remove"]

/-- The `known_subcommands` entry for `docker` in `SemanticAnalyzer::new`. -/
def known_docker : List String :=
  ["build",
   "compose",
   "container",
   "context",
   "image",
   "network",
   "node",
   "plugin",
   "run",
   "secret",
   "service",
   "stack",
   "swarm",
   "system",
   "trust",
   "volume",
   "attach",
   "commit",
   "cp",
   "create",
   "diff",
   "events",
   "exec",
   "export",
   "history",
   "images",
   "import",
   "info",
   "inspect",
   "kill",
   "load",
   "login",
   "logout",
   "logs",
   "pause",
   "port",
   "ps",
   "pull",
   "push",
   "rename",
   "restart",
   "rm",
   "rmi",
   "save",
   "search",
   "start",
   "stats",
   "stop",
   "tag",
   "top",
   "unpause",
   "update",
   "version",
   "wait",
   "up",
   "down",
   "build",
   "config",
   "create",
   "events",
   "exec",
   "kill",
   "logs",
   "pause",
   "port",
   "ps",
   "pull",
   "push",
   "restart",
   "rm",
   "run",
   "scale",
   "start",
   "stop",
   "top",
   "unpause"]

/-- The `known_subcommands` entry for `kubectl` in `SemanticAnalyzer::new`. -/
def known_kubectl : List String :=
  ["alpha",
   "annotate",
   "api-resources",
   "api-versions",
   "apply",
   "attach",
   "auth",
   "autoscale",
   "certificate",
   "cluster-info",
   "completion",
   "config",
   "cordon",
   "cp",
   "create",
   "debug",
   "delete",
   "describe",
   "diff",
   "drain",
   "edit",
   "exec",
   "explain",
   "expose",
   "get",
   "kustomize",
   "label",
   "logs",
   "options",
   "patch",
   "plugin",
   "port-forward",
   "proxy",
   "replace",
   "rollout",
   "run",
   "scale",
   "set",
   "taint",
   "top",
   "uncordon",
   "version",
   "wait",
   "view",
   "get-contexts",
   "current-context",
   "get-clusters",
   "get-users",
   "set-context",
   "set-cluster",
   "set-credentials",
   "use-context",
   "delete-context",
   "delete-cluster",
   "delete-user",
   "rename-context",
   "can-i",
   "whoami",
   "status",
   "history",
   "restart",
   "undo",
   "pause",
   "resume"]

/-- The `known_subcommands` entry for `terraform` in `SemanticAnalyzer::new`. -/
def known_terraform : List String :=
  ["apply",
   "console",
   "destroy",
   "fmt",
   "force-unlock",
   "get",
   "graph",
   "import",
   "init",
   "login",
   "logout",
   "metadata",
   "output",
   "plan",
   "providers",
   "refresh",
   "show",
   "state",
   "taint",
   "test",
   "untaint",
   "validate",
   "version",
   "workspace",
   "list",
   "mv",
   "pull",
   "push",
   "replace-provider",
   "rm",
   "delete",
   "new",
   "select",
   "lock",
   "mirror",
   "schema"]

/-- The `known_subcommands` entry for `cargo` in `SemanticAnalyzer::new`. -/
def known_cargo : List String :=
  ["add",
   "bench",
   "build",
   "check",
   "clean",
   "clippy",
   "doc",
   "fetch",
   "fix",
   "fmt",
   "generate-lockfile",
   "init",
   "install",
   "locate-project",
   "login",
   "logout",
   "metadata",
   "new",
   "owner",
   "package",
   "pkgid",
   "publish",
   "read-manifest",
   "remove",
   "report",
   "run",
   "rustc",
   "rustdoc",
   "search",
   "test",
   "tree",
   "uninstall",
   "update",
   "vendor",
   "verify-project",
   "version",
   "yank"]

/-- The `known_subcommands` entry for `az` in `SemanticAnalyzer::new`. -/
def known_az : List String :=
  ["account",
   "acr",
   "ad",
   "advisor",
   "aks",
   "apim",
   "appconfig",
   "appservice",
   "backup",
   "batch",
   "bicep",
   "billing",
   "cdn",
   "cloud",
   "cognitiveservices",
   "config",
   "configure",
   "consumption",
   "container",
   "cosmosdb",
   "deployment",
   "disk",
   "eventgrid",
   "eventhubs",
   "extension",
   "feature",
   "functionapp",
   "group",
   "hdinsight",
   "identity",
   "image",
   "iot",
   "keyvault",
   "lab",
   "lock",
   "login",
   "logout",
   "logic",
   "managed-cassandra",
   "managedapp",
   "maps",
   "mariadb",
   "ml",
   "monitor",
   "mysql",
   "netappfiles",
   "network",
   "policy",
   "postgres",
   "ppg",
   "provider",
   "redis",
   "relay",
   "reservations",
   "resource",
   "role",
   "search",
   "security",
   "servicebus",
   "sf",
   "sig",
   "signalr",
   "snapshot",
   "sql",
   "ssh",
   "sshkey",
   "staticwebapp",
   "storage",
   "synapse",
   "tag",
   "term",
   "ts",
   "version",
   "vm",
   "vmss",
   "webapp",
   "server",
   "db",
   "database",
   "container",
   "blob",
   "queue",
   "table",
   "file",
   "share",
   "vnet",
   "subnet",
   "nsg",
   "nic",
   "lb",
   "public-ip",
   "private-endpoint",
   "application-gateway",
   "firewall",
   "dns",
   "front-door",
   "traffic-manager",
   "express-route",
   "vpn-gateway",
   "nat",
   "bastion",
   "user",
   "sp",
   "app",
   "secret",
   "key",
   "certificate",
   "nodepool",
   "assignment",
   "definition",
   "repository",
   "rule",
   "member",
   "workspace",
   "activity-log",
   "log-analytics",
   "metrics",
   "diagnostic-settings",
   "action-group",
   "alert",
   "autoscale",
   "appsettings",
   "connection-string",
   "deployment-slot",
   "keys",
   "credential",
   "list",
   "show",
   "create",
   "delete",
   "update",
   "set",
   "get",
   "add",
   "remove",
   "start",
   "stop",
   "restart",
   "scale",
   "upgrade",
   "resize",
   "exists",
   "regenerate",
   "reset",
   "upload",
   "download",
   "copy",
   "move",
   "import",
   "export",
   "backup",
   "restore",
   "build",
   "query",
   "invoke",
   "run",
   "wait",
   "tail",
   "list-defaults",
   "get-credentials",
   "get-versions",
   "get-access-token",
   "show-connection-string",
   "list-locations",
   "list-ip-addresses",
   "list-sizes",
   "list-skus",
   "list-usage",
   "get-instance-view",
   "show-tags"]

/-- The per-program knowledge table built by `SemanticAnalyzer::new`.
The Rust `HashMap` keyed by program name is modelled as a lookup function. -/
def programs : String -> Option ProgramInfo :=
  fun p =>
    if p = "git" then some ⟨2, known_git⟩
    else if p = "docker" then some ⟨2, known_docker⟩
    else if p = "kubectl" then some ⟨2, known_kubectl⟩
    else if p = "terraform" then some ⟨2, known_terraform⟩
    else if p = "cargo" then some ⟨1, known_cargo⟩
    else if p = "az" then some ⟨4, known_az⟩
    else none

/-- `SemanticAnalyzer::parse_flags`: fold one `-`-prefixed word into the flag
set.  A `--` word contributes the text before the first `=`; a single-dash
word longer than one character contributes one `-c` flag per alphabetic
character after the dash.  (Rust `char::is_alphabetic` is Unicode-alphabetic;
`Char.isAlpha` coincides with it on ASCII words.) -/
def parse_flags (word : String) (flags : Finset String) : Finset String :=
  if strStartsWith word "--" then
    -- Long flag: --force, --no-verify
    insert (String.mk (word.data.takeWhile (fun c => c ≠ '='))) flags
  else if strStartsWith word "-" && word.length > 1 then
    -- Short flags: -f, -rf (combined)
    (word.toList.drop 1).foldl
      (fun fs c => if c.isAlpha then insert (String.mk ['-', c]) fs else fs)
      flags
  else flags

/-- The word loop of `SemanticAnalyzer::analyze`, with the two pieces of
mutable state (`in_subcommand_region`, `subcommand_depth`) and the three
accumulators threaded explicitly. -/
def analyzeGo (maxDepth : Nat) (known : List String) :
    List String → Bool → Nat →
    List String → Finset String → List String →
    List String × Finset String × List String
  | [], _, _, subcommands, flags, args => (subcommands, flags, args)
  | word :: rest, inSub, depth, subcommands, flags, args =>
    if strStartsWith word "-" then
      -- It is a flag
      analyzeGo maxDepth known rest false depth
        subcommands (parse_flags word flags) args
    else if inSub && depth < maxDepth then
      if known.contains word then
        analyzeGo maxDepth known rest inSub (depth + 1)
          (subcommands ++ [word]) flags args
      else
        -- Not a known subcommand, treat as arg
        analyzeGo maxDepth known rest false depth
          subcommands flags (args ++ [word])
    else
      -- It is an argument
      analyzeGo maxDepth known rest inSub depth subcommands flags (args ++ [word])

/-- `SemanticAnalyzer::analyze`: extract subcommands, flags, and args from the
words following the program word.  A program absent from the table has
effective maximum depth zero (`unwrap_or(0)` / `unwrap_or(false)`). -/
def analyze (program : String) (remaining : List String) :
    List String × Finset String × List String :=
  let maxDepth := match programs program with
    | some info => info.max_subcommand_depth
    | none => 0
  let known := match programs program with
    | some info => info.known_subcommands
    | none => []
  analyzeGo maxDepth known remaining true 0 [] ∅ []

end SemanticAnalyzer


/-! ## Brush-parser AST and command extractor (`src/parser/brush_adapter.rs`)

The AST types mirror the shapes of `brush_parser::ast` that the adapter
pattern-matches on.  Payloads the adapter never reads (redirect details,
process-substitution bodies, pipeline negation, separator operators, case
patterns, loop headers) are omitted.  Word values are carried as their raw
(still-quoted) token text, exactly as in `brush_parser::ast::Word::value`;
the adapter applies `unquote_str` when collecting words. -/

/-- `brush_parser::ast::AssignmentName`. -/
inductive AssignmentName where
  | variableName (s : String)
  | arrayElementName (name index : String)
deriving DecidableEq

/-- `brush_parser::ast::AssignmentValue`.  Array elements are pairs of an
optional key word and a value word (their raw `value` texts). -/
inductive AssignmentValue where
  | scalar (word : String)
  | array (elements : List (Option String × String))
deriving DecidableEq

/-- `brush_parser::ast::Assignment` (the fields the adapter reads). -/
structure Assignment where
  name : AssignmentName
  value : AssignmentValue
deriving DecidableEq

/-- `brush_parser::ast::CommandPrefixOrSuffixItem`, with payloads the adapter
ignores dropped. -/
inductive PrefixSuffixItem where
  | assignmentWord (assignment : Assignment)
  | ioRedirect
  | word (w : String)
  | processSubstitution
deriving DecidableEq

/-- `brush_parser::ast::SimpleCommand`.  The fields are named `prefix`,
`word_or_name` and `suffix` in brush; `prefix`/`suffix` are renamed here to
avoid Lean keywords. -/
structure SimpleCommand where
  cmdPrefix : Option (List PrefixSuffixItem)
  word_or_name : Option String
  cmdSuffix : Option (List PrefixSuffixItem)
deriving DecidableEq

mutual
/-- `brush_parser::ast::Command`. -/
inductive Command where
  | simple (c : SimpleCommand)
  | compound (c : CompoundCommand)
  | extendedTest
  | functionDefinition

/-- `brush_parser::ast::CompoundCommand`, keeping exactly the command-list
bodies the adapter walks (for a `ForClause`/`ArithmeticForClause` the body is
`body.list`; for a `CaseClause` the optional command list of each case item;
for while/until the condition list and the do-group list). -/
inductive CompoundCommand where
  | subshell (list : CompoundList)
  | braceGroup (list : CompoundList)
  | forClause (body : CompoundList)
  | caseClause (cases : List (Option CompoundList))
  | ifClause (condition : CompoundList) (thenBody : CompoundList)
      (elses : Option (List ElseClause))
  | whileClause (condition : CompoundList) (body : CompoundList)
  | untilClause (condition : CompoundList) (body : CompoundList)
  | arithmeticForClause (body : CompoundList)
  | arithmetic

/-- `brush_parser::ast::ElseClause`: an optional `elif` condition and a body. -/
inductive ElseClause where
  | mk (condition : Option CompoundList) (body : CompoundList)

/-- `brush_parser::ast::Pipeline` (the `seq` field). -/
inductive Pipeline where
  | mk (seq : List Command)

/-- `brush_parser::ast::AndOr`: a pipeline joined by `&&` or `||`. -/
inductive AndOr where
  | andOp (p : Pipeline)
  | orOp (p : Pipeline)

/-- `brush_parser::ast::AndOrList`: a first pipeline and the additional
`&&`/`||`-joined pipelines. -/
inductive AndOrList where
  | mk (first : Pipeline) (additional : List AndOr)

/-- `brush_parser::ast::CompoundList`: the and-or lists of the
`CompoundListItem`s (separator operators dropped). -/
inductive CompoundList where
  | mk (items : List AndOrList)
end

/-- The backquote character, named to keep the source text free of raw
backquotes. -/
def backquoteChar : Char := Char.ofNat 96

mutual
/-- Modelled from the spec: `brush_parser::unquote_str` outside quotes
(not part of this repository).  Spec 4.1: quote resolution fully removes
single/double quote delimiters; a bare backslash escapes the next character. -/
def unquoteNormal : List Char → List Char
  | [] => []
  | c :: rest =>
    if c = '\'' then unquoteSingle rest
    else if c = '"' then unquoteDouble rest
    else if c = '\\' then
      match rest with
      | [] => []
      | d :: rest2 => d :: unquoteNormal rest2
    else c :: unquoteNormal rest

/-- Modelled from the spec: inside single quotes every byte is literal until
the closing quote. -/
def unquoteSingle : List Char → List Char
  | [] => []
  | c :: rest => if c = '\'' then unquoteNormal rest else c :: unquoteSingle rest

/-- Modelled from the spec: inside double quotes only the escape set
double-quote, backslash, dollar, backquote, `n`, `t` (each preceded by a
backslash) is honored; all other backslash sequences pass through
literally. -/
def unquoteDouble : List Char → List Char
  | [] => []
  | c :: rest =>
    if c = '"' then unquoteNormal rest
    else if c = '\\' then
      match rest with
      | [] => ['\\']
      | d :: rest2 =>
        if d = '"' || d = '\\' || d = '$' || d = backquoteChar then
          d :: unquoteDouble rest2
        else if d = 'n' then '\n' :: unquoteDouble rest2
        else if d = 't' then '\t' :: unquoteDouble rest2
        else '\\' :: d :: unquoteDouble rest2
    else c :: unquoteDouble rest
end

/-- `unquote_word` in the adapter: apply the (modelled) `unquote_str`. -/
def unquote_word (value : String) : String :=
  String.mk (unquoteNormal value.data)

/-- `assignment_name_to_string`. -/
def assignment_name_to_string (name : AssignmentName) : String :=
  match name with
  | .variableName s => s
  | .arrayElementName name index => name ++ "[" ++ index ++ "]"

/-- `assignment_value_to_string`. -/
def assignment_value_to_string (value : AssignmentValue) : String :=
  match value with
  | .scalar word => word
  | .array elements =>
    let parts := elements.map (fun kv =>
      match kv.1 with
      | some k => "[" ++ k ++ "]=" ++ kv.2
      | none => kv.2)
    "(" ++ String.intercalate " " parts ++ ")"

/-- The character loop of `contains_expansion`: a `$` whose following
character exists and is neither `(` nor a backquote. -/
def containsExpansionChars : List Char → Bool
  | [] => false
  | c :: rest =>
    if c = '$' then
      match rest with
      | [] => false
      | next :: _ =>
        if next ≠ '(' && next ≠ backquoteChar then true
        else containsExpansionChars rest
    else containsExpansionChars rest

/-- `contains_expansion`. -/
def contains_expansion (s : String) : Bool :=
  containsExpansionChars s.data

/-- `contains_substitution`: the string contains `$(` or a backquote. -/
def contains_substitution (s : String) : Bool :=
  hasSubstring ['$', '('] s.data || s.data.contains backquoteChar

/-- `HashMap::insert` on the association-list model of `env_vars`:
replace the value at an existing key, otherwise append. -/
def upsert (key value : String) : List (String × String) → List (String × String)
  | [] => [(key, value)]
  | (k, v) :: rest =>
    if k = key then (key, value) :: rest else (k, v) :: upsert key value rest

/-- The prefix loop of `extract_simple_command`: assignments populate
`env_vars`, redirects and process substitutions set `has_redirect`, words are
unquoted and appended. -/
def processPrefixItems :
    List PrefixSuffixItem →
    List (String × String) × Bool × List String →
    List (String × String) × Bool × List String
  | [], acc => acc
  | item :: rest, (envVars, hasRedirect, words) =>
    match item with
    | .assignmentWord a =>
      processPrefixItems rest
        (upsert (assignment_name_to_string a.name) (assignment_value_to_string a.value) envVars,
         hasRedirect, words)
    | .ioRedirect => processPrefixItems rest (envVars, true, words)
    | .word w => processPrefixItems rest (envVars, hasRedirect, words ++ [unquote_word w])
    | .processSubstitution => processPrefixItems rest (envVars, true, words)

/-- The suffix loop of `extract_simple_command`: an assignment-shaped word in
suffix position is re-rendered as the literal argument `NAME=VALUE`, never an
environment assignment. -/
def processSuffixItems :
    List PrefixSuffixItem →
    Bool × List String →
    Bool × List String
  | [], acc => acc
  | item :: rest, (hasRedirect, words) =>
    match item with
    | .ioRedirect => processSuffixItems rest (true, words)
    | .word w => processSuffixItems rest (hasRedirect, words ++ [unquote_word w])
    | .assignmentWord a =>
      processSuffixItems rest
        (hasRedirect,
         words ++ [assignment_name_to_string a.name ++ "=" ++ assignment_value_to_string a.value])
    | .processSubstitution => processSuffixItems rest (true, words)

/-- The three locals of `extract_simple_command` (`env_vars`, `has_redirect`,
`words`) after the prefix loop, the command word, and the suffix loop have
been processed, in source order. -/
def gathered (cmd : SimpleCommand) : List (String × String) × Bool × List String :=
  let step1 := match cmd.cmdPrefix with
    | some items => processPrefixItems items ([], false, [])
    | none => ([], false, [])
  let step2 := match cmd.word_or_name with
    | some w => step1.2.2 ++ [unquote_word w]
    | none => step1.2.2
  match cmd.cmdSuffix with
  | some items => (step1.1, processSuffixItems items (step1.2.1, step2))
  | none => (step1.1, step1.2.1, step2)

/-- The words collected by `extract_simple_command` for a simple command, in
source order: prefix words, then `word_or_name`, then suffix words. -/
def collectedWords (cmd : SimpleCommand) : List String :=
  (gathered cmd).2.2

/-- `extract_simple_command`: build a `ParsedCommand` from a simple-command
node, or `none` when no word exists (assignment-only fragments). -/
def extract_simple_command (input : String) (cmd : SimpleCommand)
    (isPiped : Bool) : Option ParsedCommand :=
  let env_vars := (gathered cmd).1
  let has_redirect := (gathered cmd).2.1
  -- If no program (just assignments), return None
  match collectedWords cmd with
  | [] => none
  | program :: remaining =>
    -- Detect expansion and substitution in all words
    let words := program :: remaining
    let has_expansion := words.any contains_expansion
    let has_substitution := words.any contains_substitution
    -- Use semantic analyzer
    let analyzed := SemanticAnalyzer.analyze program remaining
    some
      { raw := input
        program := program
        subcommands := analyzed.1
        args := analyzed.2.2
        flags := analyzed.2.1
        is_piped := isPiped
        has_redirect := has_redirect
        env_vars := env_vars
        has_expansion := has_expansion
        has_substitution := has_substitution }

mutual
/-- `extract_from_compound_list`. -/
def extract_from_compound_list (input : String) : CompoundList → List ParsedCommand
  | .mk items => extractItems input items

/-- The item loop of `extract_from_compound_list`. -/
def extractItems (input : String) : List AndOrList → List ParsedCommand
  | [] => []
  | item :: rest => extract_from_and_or_list input item ++ extractItems input rest

/-- `extract_from_and_or_list`. -/
def extract_from_and_or_list (input : String) : AndOrList → List ParsedCommand
  | .mk first additional =>
    extract_from_pipeline input first ++ extractAdditional input additional

/-- The additional-pipelines loop of `extract_from_and_or_list` (the `&&` and
`||` arms are identical). -/
def extractAdditional (input : String) : List AndOr → List ParsedCommand
  | [] => []
  | .andOp p :: rest => extract_from_pipeline input p ++ extractAdditional input rest
  | .orOp p :: rest => extract_from_pipeline input p ++ extractAdditional input rest

/-- `extract_from_pipeline`: a pipeline with more than one stage marks every
stage as piped. -/
def extract_from_pipeline (input : String) : Pipeline → List ParsedCommand
  | .mk seq => extractSeq input (decide (seq.length > 1)) seq

/-- The stage loop of `extract_from_pipeline`. -/
def extractSeq (input : String) (isPiped : Bool) : List Command → List ParsedCommand
  | [] => []
  | c :: rest => extract_from_command input isPiped c ++ extractSeq input isPiped rest

/-- `extract_from_command`: simple commands are emitted (when they have a
program word), compound commands recurse, extended tests and function
definitions terminate without extraction. -/
def extract_from_command (input : String) (isPiped : Bool) : Command → List ParsedCommand
  | .simple sc =>
    match extract_simple_command input sc isPiped with
    | some parsed => [parsed]
    | none => []
  | .compound cc => extract_from_compound_command input cc
  | .extendedTest => []
  | .functionDefinition => []

/-- `extract_from_compound_command`: every nested command-list body is
flattened; arithmetic commands are dropped. -/
def extract_from_compound_command (input : String) : CompoundCommand → List ParsedCommand
  | .subshell l => extract_from_compound_list input l
  | .braceGroup l => extract_from_compound_list input l
  | .forClause body => extract_from_compound_list input body
  | .caseClause cases => extractCases input cases
  | .ifClause condition thenBody elses =>
    extract_from_compound_list input condition ++
      extract_from_compound_list input thenBody ++
      (match elses with
       | some es => extractElses input es
       | none => [])
  | .whileClause condition body =>
    extract_from_compound_list input condition ++ extract_from_compound_list input body
  | .untilClause condition body =>
    extract_from_compound_list input condition ++ extract_from_compound_list input body
  | .arithmeticForClause body => extract_from_compound_list input body
  | .arithmetic => []

/-- The case-item loop of `extract_from_compound_command`. -/
def extractCases (input : String) : List (Option CompoundList) → List ParsedCommand
  | [] => []
  | some c :: rest => extract_from_compound_list input c ++ extractCases input rest
  | none :: rest => extractCases input rest

/-- The else-clause loop of `extract_from_compound_command`. -/
def extractElses (input : String) : List ElseClause → List ParsedCommand
  | [] => []
  | .mk condition body :: rest =>
    (match condition with
     | some c => extract_from_compound_list input c
     | none => []) ++
      extract_from_compound_list input body ++ extractElses input rest
end

/-- The walk over `program.complete_commands` in `parse_with_brush`. -/
def extractCompleteCommands (input : String) : List CompoundList → List ParsedCommand
  | [] => []
  | cl :: rest => extract_from_compound_list input cl ++ extractCompleteCommands input rest

/-- `parse_with_brush`, taking the AST (`program.complete_commands`) produced
by the external brush tokenizer/parser for `input`.  Tokenizer and parser
errors happen before this point in the Rust code and are outside this
embedding; given a successfully parsed program, the only error source is the
empty-result check. -/
def parse_with_brush (input : String) (complete_commands : List CompoundList) :
    Except String (List ParsedCommand) :=
  let results := extractCompleteCommands input complete_commands
  -- If we got nothing but input wasn't empty, that's an error
  if results.isEmpty && !trimIsEmpty input then
    .error "No commands found in input"
  else
    .ok results

/-- Modelled from the spec: the brush tokenizer/parser (not part of this
repository) turns an empty or whitespace-only input into a program with no
complete commands. -/
def whitespaceProgram : List CompoundList := []


/-! ## Specification-side definitions

Definitions written from the specification's wording, to be compared with the
embedded source functions. -/

/-- Strictness of a decision under the total order Deny > Prompt > Allow. -/
def severity : Decision → Nat
  | .allow => 0
  | .prompt _ => 1
  | .deny _ => 2

/-- The strictest severity among a list of per-command results. -/
def maxSev : List (Decision × Option Rule) → Nat
  | [] => 0
  | p :: ps => max (severity p.1) (maxSev ps)

/-- The claim's aggregate: the first per-command result (left-to-right)
achieving the strictest severity. -/
def specAggregateClaim (pairs : List (Decision × Option Rule)) :
    Decision × Option Rule :=
  match pairs.find? (fun p => severity p.1 = maxSev pairs) with
  | some p => p
  | none => (.allow, none)

/-- The corrected aggregate: the first result achieving the strictest
severity, except that when the strictest severity is Allow the matched rule
is always `none`. -/
def strictestSpec (pairs : List (Decision × Option Rule)) :
    Decision × Option Rule :=
  if maxSev pairs = 0 then (.allow, none)
  else
    match pairs.find? (fun p => severity p.1 = maxSev pairs) with
    | some p => p
    | none => (.allow, none)

/-- A connective joining two simple commands in a flat compound expression. -/
inductive Joiner where
  | pipe
  | andThen
  | orElse
  | semicolon
deriving DecidableEq

/-- Modelled from the spec: the AST the external brush parser produces for a
flat compound expression `c₀ j₁ c₁ j₂ c₂ …` (simple commands joined by `|`,
`&&`, `||`, `;`), following the POSIX shell grammar the spec's extraction
contract assumes: `;` separates compound-list items, `&&`/`||` extend an
and-or list, `|` extends a pipeline.  Returns the first and-or list and the
remaining items of the single compound list.
`prependAnd` opens a new `&&`-joined pipeline `c` in front of an and-or
list. -/
def prependAnd (c : SimpleCommand) : AndOrList → AndOrList
  | .mk first additional => .mk (.mk [.simple c]) (.andOp first :: additional)

/-- Open a new `||`-joined pipeline `c` in front of an and-or list. -/
def prependOr (c : SimpleCommand) : AndOrList → AndOrList
  | .mk first additional => .mk (.mk [.simple c]) (.orOp first :: additional)

/-- Add `c` as a new first stage of the first pipeline of an and-or list. -/
def prependPipe (c : SimpleCommand) : AndOrList → AndOrList
  | .mk (.mk seq) additional => .mk (.mk (.simple c :: seq)) additional

/-- See the module comment above `toProgram`. -/
def build : SimpleCommand → List (Joiner × SimpleCommand) → AndOrList × List AndOrList
  | c, [] => (.mk (.mk [.simple c]) [], [])
  | c, (j, c2) :: rest =>
    match j with
    | .semicolon =>
      (.mk (.mk [.simple c]) [], (build c2 rest).1 :: (build c2 rest).2)
    | .andThen => (prependAnd c (build c2 rest).1, (build c2 rest).2)
    | .orElse => (prependOr c (build c2 rest).1, (build c2 rest).2)
    | .pipe => (prependPipe c (build c2 rest).1, (build c2 rest).2)

/-- The complete-command list the external parser produces for a flat
compound expression (one compound list). -/
def toProgram (first : SimpleCommand) (rest : List (Joiner × SimpleCommand)) :
    List CompoundList :=
  [.mk ((build first rest).1 :: (build first rest).2)]

/-- The simple commands of a flat compound expression, in source order. -/
def flatCommands (first : SimpleCommand) (rest : List (Joiner × SimpleCommand)) :
    List SimpleCommand :=
  first :: rest.map Prod.snd

/-! ## Concrete fixtures used by witnesses and counterexamples -/

/-- A matcher environment in which every pattern is invalid and the working
directory is undeterminable. -/
def envTrivial : MatchEnv := ⟨fun _ => none, fun _ => none, none⟩

/-- The simple command `allowed`. -/
def scAllowed : SimpleCommand := ⟨none, some "allowed", none⟩

/-- The simple command `blocked`. -/
def scBlocked : SimpleCommand := ⟨none, some "blocked", none⟩

/-- A rule denying the program `blocked`, with no other constraints and no
message. -/
def ruleBlocked : Rule :=
  ⟨some "blocked", [], false, none, none, [], [], none, .deny, none⟩

/-- A configuration whose only rule is `ruleBlocked` and whose default action
is Allow. -/
def cfgBlockedOnly : Config :=
  ⟨⟨.allow, false⟩, ⟨[], []⟩, [ruleBlocked], [], []⟩


/-! ## Theorems -/

/-- C10: For the empty command list, `evaluate_all_with_trace` returns the
Allow decision with no matched rule, for every environment and configuration
(whatever the default action), and `evaluate_all` returns Allow. -/
theorem evaluate_all_nil_allows (env : MatchEnv) (config : Config) :
    Evaluator.evaluate_all_with_trace env config [] = (.allow, none) ∧
      Evaluator.evaluate_all env config [] = .allow :=
  ⟨rfl, rfl⟩

/-- C1: With a single rule denying program `blocked` and default action
Allow, both `allowed && blocked` and `allowed | blocked` extract to command
lists whose evaluation with `evaluate_all` is a Deny, in every matcher
environment. -/
theorem no_bypass_chain_and_pipe (env : MatchEnv) :
    (∃ l, parse_with_brush "allowed && blocked"
        (toProgram scAllowed [(.andThen, scBlocked)]) = .ok l ∧
      Evaluator.evaluate_all env cfgBlockedOnly l = .deny "Blocked by rule") ∧
    (∃ l, parse_with_brush "allowed | blocked"
        (toProgram scAllowed [(.pipe, scBlocked)]) = .ok l ∧
      Evaluator.evaluate_all env cfgBlockedOnly l = .deny "Blocked by rule") :=
  ⟨⟨_, rfl, rfl⟩, ⟨_, rfl, rfl⟩⟩

/-- C7: An empty or whitespace-only input yields an empty command list (not
an error); a non-whitespace input whose extraction yields zero commands is an
error, never an `ok` result. -/
theorem parse_empty_and_empty_result (input : String) :
    (trimIsEmpty input = true →
      parse_with_brush input whitespaceProgram = .ok []) ∧
    (∀ prog : List CompoundList, trimIsEmpty input = false →
      extractCompleteCommands input prog = [] →
      parse_with_brush input prog = .error "No commands found in input") := by
  constructor
  · intro h
    simp [parse_with_brush, whitespaceProgram, extractCompleteCommands, h]
  · intro prog h hextract
    simp [parse_with_brush, hextract, h]

/-- Witness for C7: the whitespace input `"  "` yields `ok []`, and the
assignment-only input `A=1` (which extracts zero commands) is an error. -/
theorem parse_empty_and_empty_result_witness :
    parse_with_brush "  " whitespaceProgram = .ok [] ∧
      parse_with_brush "A=1"
        [.mk [.mk (.mk [.simple ⟨some [.assignmentWord ⟨.variableName "A", .scalar "1"⟩], none, none⟩]) []]] =
        .error "No commands found in input" :=
  ⟨(parse_empty_and_empty_result "  ").1 (by decide),
   (parse_empty_and_empty_result "A=1").2 _ (by decide) (by decide)⟩

/-- A run of the prefix loop over items none of which is a plain word leaves
the collected word list unchanged. -/
theorem processPrefixItems_wordless (items : List PrefixSuffixItem)
    (envVars : List (String × String)) (redirect : Bool) (words : List String)
    (h : ∀ it ∈ items, (match it with
      | PrefixSuffixItem.word _ => false
      | _ => true) = true) :
    (processPrefixItems items (envVars, redirect, words)).2.2 = words := by
  induction items generalizing envVars redirect words with
  | nil => rfl
  | cons it rest ih =>
    cases it with
    | assignmentWord a =>
      simpa [processPrefixItems] using
        ih _ _ _ (fun x hx => h x (List.mem_cons_of_mem _ hx))
    | ioRedirect =>
      simpa [processPrefixItems] using
        ih _ _ _ (fun x hx => h x (List.mem_cons_of_mem _ hx))
    | word w =>
      have := h _ (List.mem_cons_self _ _)
      simp at this
    | processSubstitution =>
      simpa [processPrefixItems] using
        ih _ _ _ (fun x hx => h x (List.mem_cons_of_mem _ hx))

/-- C9 counterexample: the input `'' foo` (an empty quoted word in program
position) is accepted and emits a `ParsedCommand` whose program is the empty
string, so commands with an empty program can be emitted. -/
theorem empty_program_emitted :
    (extract_simple_command "'' foo" ⟨none, some "''", some [.word "foo"]⟩ false).map
        (fun pc => pc.program) = some "" := by
  decide

/-- C9 (amended): every emitted `ParsedCommand` comes from a non-empty
collected word list and its program is the first collected word (which may
itself be the empty string); fragments with no word — in particular
assignment-only fragments — are dropped, never emitted. -/
theorem emitted_iff_program_word (input : String) (sc : SimpleCommand) (piped : Bool) :
    (collectedWords sc = [] → extract_simple_command input sc piped = none) ∧
    (∀ pc, extract_simple_command input sc piped = some pc →
      ∃ remaining, collectedWords sc = pc.program :: remaining) ∧
    (sc.word_or_name = none → sc.cmdSuffix = none →
      (sc.cmdPrefix.getD []).all
        (fun it => match it with | .word _ => false | _ => true) = true →
      extract_simple_command input sc piped = none) := by
  refine ⟨?_, ?_, ?_⟩
  · intro h
    simp [extract_simple_command, h]
  · intro pc hpc
    unfold extract_simple_command at hpc
    rcases h : collectedWords sc with _ | ⟨program, remaining⟩
    · simp [h] at hpc
    · refine ⟨remaining, ?_⟩
      rw [h] at hpc
      simp at hpc
      rw [← hpc]
  · intro hw hs hall
    have hwords : collectedWords sc = [] := by
      unfold collectedWords gathered
      rw [hw, hs]
      rcases hp : sc.cmdPrefix with _ | items
      · rfl
      · simp only [hp, Option.getD_some] at hall
        rw [List.all_eq_true] at hall
        simpa using processPrefixItems_wordless items [] false [] hall
    simp [extract_simple_command, hwords]

/-- The simple command `git status`. -/
def scGitStatus : SimpleCommand := ⟨none, some "git", some [.word "status"]⟩

/-- The `ParsedCommand` extracted from `git status`. -/
def pcGitStatus : ParsedCommand :=
  ⟨"git status", "git", ["status"], [], ∅, false, false, [], false, false⟩

/-- Witness for C9 (amended): instantiated on the assignment-only fragment
`A=1` (dropped) and on `git status` (emitted with program `git`). -/
theorem emitted_iff_program_word_witness :
    extract_simple_command "A=1"
        ⟨some [.assignmentWord ⟨.variableName "A", .scalar "1"⟩], none, none⟩ false = none ∧
    (∃ remaining, collectedWords scGitStatus = pcGitStatus.program :: remaining) := by
  constructor
  · exact (emitted_iff_program_word "A=1" _ false).2.2 rfl rfl (by decide)
  · exact (emitted_iff_program_word "git status" scGitStatus false).2.1 pcGitStatus rfl


/-- A rule with an empty subcommand list but the exact flag set, denying
unconditionally. -/
def ruleEmptyExact : Rule :=
  ⟨none, [], true, none, none, [], [], none, .deny, none⟩

/-- C5 counterexample: a rule with `subcommands = []` and
`subcommands_exact = true` matches a command whose subcommand path is
`["status"]`, although that path does not equal the rule's (empty) list —
the exact-equality reading fails for the empty rule list because the source
guards the whole subcommand check by `!rule.subcommands.is_empty()`. -/
theorem subcommand_exact_empty_counterexample :
    ruleEmptyExact.subcommands = [] ∧
    ruleEmptyExact.subcommands_exact = true ∧
    pcGitStatus.subcommands ≠ ruleEmptyExact.subcommands ∧
    RuleMatcher.«matches» envTrivial ruleEmptyExact pcGitStatus = true := by
  refine ⟨rfl, rfl, by decide, by decide⟩

/-- C5 (amended): for a non-empty rule list the subcommand condition is
equality when the exact flag is set and ordered-prefix otherwise; an empty
rule list imposes no constraint regardless of the exact flag; and the
elementwise check coincides with list-prefix. -/
theorem subcommand_matching_amended (env : MatchEnv) (rule : Rule)
    (cmd : ParsedCommand) :
    (RuleMatcher.«matches» env rule cmd = true → rule.subcommands ≠ [] →
      (rule.subcommands_exact = true → cmd.subcommands = rule.subcommands) ∧
      (rule.subcommands_exact = false →
        RuleMatcher.leadsList rule.subcommands cmd.subcommands = true)) ∧
    (rule.subcommands = [] → ∀ b,
      RuleMatcher.«matches» env rule cmd =
        RuleMatcher.«matches» env { rule with subcommands_exact := b } cmd) ∧
    (∀ rs cs : List String, RuleMatcher.leadsList rs cs = true ↔ rs <+: cs) := by
  refine ⟨?_, ?_, ?_⟩
  · intro h hne
    simp only [RuleMatcher.«matches», Bool.and_eq_true] at h
    obtain ⟨⟨⟨⟨⟨⟨-, hsub⟩, -⟩, -⟩, -⟩, -⟩, -⟩ := h
    rw [if_neg (by simpa [List.isEmpty_iff] using hne)] at hsub
    constructor
    · intro hex
      rw [if_pos hex] at hsub
      exact of_decide_eq_true hsub
    · intro hex
      rw [if_neg (by simp [hex])] at hsub
      exact hsub
  · intro he b
    simp [RuleMatcher.«matches», he]
  · intro rs
    induction rs with
    | nil => intro cs; simp [RuleMatcher.leadsList]
    | cons r rs ih =>
      intro cs
      cases cs with
      | nil => simp [RuleMatcher.leadsList]
      | cons c cs =>
        simp only [RuleMatcher.leadsList, Bool.and_eq_true, decide_eq_true_eq,
          List.cons_prefix_cons, ih cs]

/-- A rule restricted to subcommand `remote` in prefix (non-exact) mode. -/
def ruleRemote : Rule :=
  ⟨some "git", ["remote"], false, none, none, [], [], none, .allow, none⟩

/-- The `ParsedCommand` for `git remote add`. -/
def pcGitRemoteAdd : ParsedCommand :=
  ⟨"git remote add", "git", ["remote", "add"], [], ∅, false, false, [], false, false⟩

/-- Witness for C5 (amended): the rule on subcommand `remote` (non-exact)
matches `git remote add`, whose subcommand path extends the rule's list as an
ordered prefix. -/
theorem subcommand_matching_amended_witness :
    RuleMatcher.leadsList ruleRemote.subcommands pcGitRemoteAdd.subcommands = true ∧
      ruleRemote.subcommands <+: pcGitRemoteAdd.subcommands := by
  have h := (subcommand_matching_amended envTrivial ruleRemote pcGitRemoteAdd).1
    (by decide) (by decide)
  have h2 := h.2 rfl
  exact ⟨h2,
    ((subcommand_matching_amended envTrivial ruleRemote pcGitRemoteAdd).2.2 _ _).mp h2⟩

/-- A rule constrained only by a working-directory glob. -/
def ruleWd : Rule :=
  ⟨none, [], false, none, none, [], [], some "/home/*", .deny, none⟩

/-- C6 counterexample: with an undeterminable working directory the rule's
working-directory condition is skipped rather than treated as non-match —
the rule still matches. -/
theorem cwd_undeterminable_counterexample :
    envTrivial.cwd = none ∧
    ruleWd.working_dir = some "/home/*" ∧
    RuleMatcher.«matches» envTrivial ruleWd pcGitStatus = true :=
  ⟨rfl, rfl, by decide⟩

/-- C6 (amended): an invalid args regular expression is a non-match; an
invalid working-directory glob is a non-match provided the working directory
is determinable; an undeterminable working directory skips the
working-directory condition entirely (the rule behaves as if it had no
working-directory constraint). -/
theorem pattern_errors_amended (env : MatchEnv) (rule : Rule)
    (cmd : ParsedCommand) :
    (∀ pat, rule.args_regex = some pat → env.regexCompile pat = none →
      RuleMatcher.«matches» env rule cmd = false) ∧
    (∀ pat d, rule.working_dir = some pat → env.cwd = some d →
      env.globCompile pat = none →
      RuleMatcher.«matches» env rule cmd = false) ∧
    (env.cwd = none →
      RuleMatcher.«matches» env rule cmd =
        RuleMatcher.«matches» env { rule with working_dir := none } cmd) := by
  refine ⟨?_, ?_, ?_⟩
  · intro pat hpat hcomp
    simp [RuleMatcher.«matches», hpat, hcomp]
  · intro pat d hpat hcwd hcomp
    simp [RuleMatcher.«matches», hpat, hcwd, hcomp]
  · intro hcwd
    cases hw : rule.working_dir <;> simp [RuleMatcher.«matches», hcwd, hw]

/-- A matcher environment with a determinable working directory in which
every pattern is invalid. -/
def envBadPatterns : MatchEnv := ⟨fun _ => none, fun _ => none, some "/home/u"⟩

/-- A rule whose args regular expression is the invalid pattern `(`. -/
def ruleBadRegex : Rule :=
  ⟨none, [], false, none, some "(", [], [], none, .deny, none⟩

/-- A rule whose working-directory glob is the invalid pattern `[`. -/
def ruleBadGlob : Rule :=
  ⟨none, [], false, none, none, [], [], some "[", .deny, none⟩

/-- Witness for C6 (amended): with a determinable working directory, the
invalid regex rule and the invalid glob rule both fail to match. -/
theorem pattern_errors_amended_witness :
    RuleMatcher.«matches» envBadPatterns ruleBadRegex pcGitStatus = false ∧
      RuleMatcher.«matches» envBadPatterns ruleBadGlob pcGitStatus = false :=
  ⟨(pattern_errors_amended envBadPatterns ruleBadRegex pcGitStatus).1 "(" rfl rfl,
   (pattern_errors_amended envBadPatterns ruleBadGlob pcGitStatus).2.1 "[" "/home/u"
     rfl rfl rfl⟩


/-- Folding the short-flag cluster loop over a character list equals adding
one `-c` flag per alphabetic character to the starting set. -/
theorem foldl_cluster_flags (l : List Char) (fs : Finset String) :
    l.foldl (fun fs c => if c.isAlpha then insert (String.mk ['-', c]) fs else fs) fs =
      fs ∪ ((l.filter (fun c => c.isAlpha)).map (fun c => String.mk ['-', c])).toFinset := by
  induction l generalizing fs with
  | nil => simp
  | cons c cs ih =>
    by_cases h : c.isAlpha
    · rw [List.foldl_cons, if_pos h, ih, List.filter_cons_of_pos h, List.map_cons,
        List.toFinset_cons, Finset.union_insert, Finset.insert_union]
    · rw [List.foldl_cons, if_neg h, ih, List.filter_cons_of_neg h]

/-- C8: a `--`-prefixed word contributes exactly one flag, the text before
any `=`; a single-dash word longer than one character contributes one `-c`
flag per alphabetic character after the dash, non-alphabetic characters
ignored; and for every program (tabulated or not) a `-`-prefixed single word
is decomposed by exactly this function. -/
theorem flag_decomposition (word : String) (flags0 : Finset String) :
    (strStartsWith word "--" = true →
      SemanticAnalyzer.parse_flags word flags0 =
        insert (String.mk (word.data.takeWhile (fun c => c ≠ '='))) flags0) ∧
    (strStartsWith word "--" = false → strStartsWith word "-" = true →
      word.length > 1 →
      SemanticAnalyzer.parse_flags word flags0 =
        flags0 ∪ (((word.toList.drop 1).filter (fun c => c.isAlpha)).map
          (fun c => String.mk ['-', c])).toFinset) ∧
    (∀ program, strStartsWith word "-" = true →
      (SemanticAnalyzer.analyze program [word]).2.1 =
        SemanticAnalyzer.parse_flags word ∅) := by
  refine ⟨?_, ?_, ?_⟩
  · intro h
    rw [SemanticAnalyzer.parse_flags, if_pos h]
  · intro h1 h2 hlen
    rw [SemanticAnalyzer.parse_flags, if_neg (by simp [h1]),
      if_pos (by simp [h2, hlen]), foldl_cluster_flags (word.toList.drop 1) flags0]
  · intro program h
    simp [SemanticAnalyzer.analyze, SemanticAnalyzer.analyzeGo, h]

/-- Witness for C8: `--message=hello` contributes only `--message`; `-rf`
contributes exactly `-r` and `-f`; and the untabulated program `myprogram`
decomposes `-rf` with the same function. -/
theorem flag_decomposition_witness :
    SemanticAnalyzer.parse_flags "--message=hello" ∅ = {"--message"} ∧
    SemanticAnalyzer.parse_flags "-rf" ∅ = ({"-r", "-f"} : Finset String) ∧
    (SemanticAnalyzer.analyze "myprogram" ["-rf"]).2.1 =
      SemanticAnalyzer.parse_flags "-rf" ∅ := by
  refine ⟨?_, ?_, ?_⟩
  · have h := (flag_decomposition "--message=hello" ∅).1 (by decide)
    rw [h]; decide
  · have h := (flag_decomposition "-rf" ∅).2.1 (by decide) (by decide) (by decide)
    rw [h]; decide
  · exact (flag_decomposition "-rf" ∅).2.2 "myprogram" (by decide)


/-- The profile loop of `evaluate_single_with_trace` finds exactly the first
match in the concatenation of all profile rule lists, in profile order. -/
theorem firstProfileMatch_eq (env : MatchEnv) (command : ParsedCommand)
    (ps : List Profile) :
    Evaluator.firstProfileMatch env command ps =
      (ps.flatMap Profile.rules).find?
        (fun rule => RuleMatcher.«matches» env rule command) := by
  induction ps with
  | nil => rfl
  | cons p ps ih =>
    rw [List.flatMap_cons, List.find?_append, ← ih, Evaluator.firstProfileMatch]
    cases h : p.rules.find? (fun rule => RuleMatcher.«matches» env rule command) <;>
      simp [h]

/-- `make_decision` paired with its rule, split by action and message. -/
theorem make_decision_pair (r : Rule) :
    (Evaluator.make_decision r, some r) =
      (match r.action, r.message with
       | Action.allow, _ => (Decision.allow, some r)
       | Action.deny, some msg => (Decision.deny msg, some r)
       | Action.deny, none => (Decision.deny "Blocked by rule", some r)
       | Action.prompt, some msg => (Decision.prompt msg, some r)
       | Action.prompt, none => (Decision.prompt "Requires confirmation", some r)) := by
  rcases hr : r with ⟨p, sc, se, am, ar, fp, fa, wd, action, message⟩
  cases action <;> cases message <;> rfl

/-- C4: the per-command decision comes from the first matching rule scanning
inline configuration rules first and then each loaded profile's rules in
order; a matching rule yields its action with its configured message or the
fixed fallback text; with no matching rule the default action decides, with
the fixed generic messages. -/
theorem evaluate_single_first_match (env : MatchEnv) (config : Config)
    (command : ParsedCommand) :
    (∀ r, (config.rules ++ config.loaded_profiles.flatMap Profile.rules).find?
        (fun rule => RuleMatcher.«matches» env rule command) = some r →
      Evaluator.evaluate_single_with_trace env config command =
        (match r.action, r.message with
         | .allow, _ => (.allow, some r)
         | .deny, some msg => (.deny msg, some r)
         | .deny, none => (.deny "Blocked by rule", some r)
         | .prompt, some msg => (.prompt msg, some r)
         | .prompt, none => (.prompt "Requires confirmation", some r))) ∧
    ((config.rules ++ config.loaded_profiles.flatMap Profile.rules).find?
        (fun rule => RuleMatcher.«matches» env rule command) = none →
      Evaluator.evaluate_single_with_trace env config command =
        (match config.settings.default_action with
         | .allow => (.allow, none)
         | .deny => (.deny "Blocked by default policy", none)
         | .prompt => (.prompt "No matching rule found", none))) := by
  have hprof := firstProfileMatch_eq env command config.loaded_profiles
  constructor
  · intro r h
    rw [List.find?_append] at h
    cases hc : config.rules.find? (fun rule => RuleMatcher.«matches» env rule command) with
    | some r0 =>
      rw [hc, Option.or_some] at h
      have h2 : r0 = r := Option.some.inj h
      have heval : Evaluator.evaluate_single_with_trace env config command =
          (Evaluator.make_decision r0, some r0) := by
        simp [Evaluator.evaluate_single_with_trace, hc]
      rw [heval, h2, make_decision_pair r]
    | none =>
      rw [hc, Option.none_or] at h
      have heval : Evaluator.evaluate_single_with_trace env config command =
          (Evaluator.make_decision r, some r) := by
        simp [Evaluator.evaluate_single_with_trace, hc, hprof, h]
      rw [heval, make_decision_pair r]
  · intro h
    rw [List.find?_append] at h
    cases hc : config.rules.find? (fun rule => RuleMatcher.«matches» env rule command) with
    | some r0 => rw [hc] at h; simp at h
    | none =>
      rw [hc, Option.none_or] at h
      cases hd : config.settings.default_action <;>
        simp [Evaluator.evaluate_single_with_trace, hc, hprof, h, hd]

/-- An inline rule allowing `git push`. -/
def ruleInlineAllowPush : Rule :=
  ⟨some "git", ["push"], false, none, none, [], [], none, .allow, none⟩

/-- A profile rule denying `git push` with a message. -/
def ruleProfileDenyPush : Rule :=
  ⟨some "git", ["push"], false, none, none, [], [], none, .deny, some "Blocked by profile"⟩

/-- A configuration with the inline allow rule and a loaded profile carrying
the deny rule. -/
def cfgInlineVsProfile : Config :=
  ⟨⟨.prompt, false⟩, ⟨[], []⟩, [ruleInlineAllowPush],
    [⟨⟨"test", none⟩, [ruleProfileDenyPush]⟩], []⟩

/-- The `ParsedCommand` for `git push`. -/
def pcGitPush : ParsedCommand :=
  ⟨"git push", "git", ["push"], [], ∅, false, false, [], false, false⟩

/-- Witness for C4: the inline allow rule on `git push` wins over the profile
deny rule, because inline rules are scanned first. -/
theorem evaluate_single_first_match_witness :
    Evaluator.evaluate_single_with_trace envTrivial cfgInlineVsProfile pcGitPush =
      (.allow, some ruleInlineAllowPush) :=
  (evaluate_single_first_match envTrivial cfgInlineVsProfile pcGitPush).1
    ruleInlineAllowPush (by decide)


/-- Every decision has severity at most 2. -/
theorem severity_le_two (d : Decision) : severity d ≤ 2 := by
  cases d <;> simp [severity]

/-- The strictest severity of a result list is at most 2. -/
theorem maxSev_le_two (pairs : List (Decision × Option Rule)) :
    maxSev pairs ≤ 2 := by
  induction pairs with
  | nil => simp [maxSev]
  | cons p ps ih => simpa [maxSev, Nat.max_le] using ⟨severity_le_two p.1, ih⟩

/-- When the strictest severity is positive, some result achieves it and the
left-to-right search finds a first such result. -/
theorem maxSev_find?_some (pairs : List (Decision × Option Rule))
    (h : maxSev pairs ≠ 0) :
    ∃ q, pairs.find? (fun p => severity p.1 = maxSev pairs) = some q := by
  induction pairs with
  | nil => simp [maxSev] at h
  | cons p ps ih =>
    by_cases hp : severity p.1 = maxSev (p :: ps)
    · exact ⟨p, List.find?_cons_of_pos _ (by simpa using hp)⟩
    · have hmax : maxSev (p :: ps) = maxSev ps := by
        simp only [maxSev] at hp ⊢
        omega
      rw [hmax] at h hp ⊢
      obtain ⟨q, hq⟩ := ih h
      exact ⟨q, by rw [List.find?_cons_of_neg _ (by simpa using hp)]; exact hq⟩

/-- One unfolding of the `evaluate_all_with_trace` loop, phrased through the
severity order: the accumulator is replaced exactly when the new decision is
strictly stricter, and the loop stops exactly when the accumulator has become
a Deny. -/
theorem evalAllGo_cons (env : MatchEnv) (config : Config) (c : ParsedCommand)
    (cs : List ParsedCommand) (sd : Decision) (mr : Option Rule) :
    Evaluator.evalAllGo env config (c :: cs) (sd, mr) =
      (if severity (Evaluator.evaluate_single_with_trace env config c).1 > severity sd
       then (if severity (Evaluator.evaluate_single_with_trace env config c).1 = 2
             then Evaluator.evaluate_single_with_trace env config c
             else Evaluator.evalAllGo env config cs
               (Evaluator.evaluate_single_with_trace env config c))
       else (if severity sd = 2 then (sd, mr)
             else Evaluator.evalAllGo env config cs (sd, mr))) := by
  rcases hdr : Evaluator.evaluate_single_with_trace env config c with ⟨d, rr⟩
  cases sd <;> cases d <;> simp [Evaluator.evalAllGo, hdr, severity]

/-- The loop of `evaluate_all_with_trace`, characterized: starting from an
accumulator of severity `s`, the loop returns the accumulator unchanged when
no remaining result is stricter than `s`, and otherwise returns the first
result achieving the strictest severity of the remainder. -/
theorem evalAllGo_spec (env : MatchEnv) (config : Config) :
    ∀ (cmds : List ParsedCommand) (sd : Decision) (mr : Option Rule),
      Evaluator.evalAllGo env config cmds (sd, mr) =
        (if maxSev (cmds.map (Evaluator.evaluate_single_with_trace env config)) ≤ severity sd
         then (sd, mr)
         else ((cmds.map (Evaluator.evaluate_single_with_trace env config)).find?
            (fun p => severity p.1 =
              maxSev (cmds.map (Evaluator.evaluate_single_with_trace env config)))).getD
           (sd, mr)) := by
  intro cmds
  induction cmds with
  | nil => intro sd mr; simp [Evaluator.evalAllGo, maxSev]
  | cons c cs ih =>
    intro sd mr
    rw [evalAllGo_cons]
    rcases hdr : Evaluator.evaluate_single_with_trace env config c with ⟨d, rr⟩
    simp only [List.map_cons, hdr, maxSev]
    by_cases hgt : severity d > severity sd
    · rw [if_pos (by simpa [hdr] using hgt)]
      by_cases h2 : severity d = 2
      · rw [if_pos (by simpa [hdr] using h2)]
        have hmax : max (severity d)
            (maxSev (cs.map (Evaluator.evaluate_single_with_trace env config))) =
            severity d := by
          have := maxSev_le_two (cs.map (Evaluator.evaluate_single_with_trace env config))
          omega
        rw [hmax, if_neg (by omega), List.find?_cons_of_pos _ (by simp), Option.getD_some]
      · rw [if_neg (by simpa [hdr] using h2), ih]
        set m := maxSev (cs.map (Evaluator.evaluate_single_with_trace env config)) with hm
        by_cases hle : m ≤ severity d
        · have hmax : max (severity d) m = severity d := by omega
          rw [if_pos hle, hmax, if_neg (by omega),
            List.find?_cons_of_pos _ (by simp), Option.getD_some]
        · have hmax : max (severity d) m = m := by omega
          rw [if_neg hle, hmax, if_neg (by omega),
            List.find?_cons_of_neg _ (by simp; omega)]
          obtain ⟨q, hq⟩ := maxSev_find?_some
            (cs.map (Evaluator.evaluate_single_with_trace env config)) (by omega)
          rw [← hm] at hq
          rw [hq]
          simp
    · rw [if_neg (by simpa [hdr] using hgt)]
      by_cases hsd2 : severity sd = 2
      · have hd2 := severity_le_two d
        have hm2 := maxSev_le_two (cs.map (Evaluator.evaluate_single_with_trace env config))
        rw [if_pos hsd2, if_pos (by omega)]
      · rw [if_neg hsd2, ih]
        set m := maxSev (cs.map (Evaluator.evaluate_single_with_trace env config)) with hm
        by_cases hle : m ≤ severity sd
        · have hmax : max (severity d) m ≤ severity sd := by omega
          rw [if_pos hle, if_pos hmax]
        · have hmax : max (severity d) m = m := by omega
          rw [if_neg hle, hmax, if_neg (by omega),
            List.find?_cons_of_neg _ (by simp; omega)]

/-- The loop output does not depend on anything after a command whose
per-command decision is Deny. -/
theorem evalAllGo_deny_stop (env : MatchEnv) (config : Config) :
    ∀ (l₁ : List ParsedCommand) (c : ParsedCommand) (l₂ : List ParsedCommand)
      (m : String),
      (Evaluator.evaluate_single_with_trace env config c).1 = .deny m →
      ∀ (sd : Decision) (mr : Option Rule),
        Evaluator.evalAllGo env config (l₁ ++ c :: l₂) (sd, mr) =
          Evaluator.evalAllGo env config (l₁ ++ [c]) (sd, mr) := by
  intro l₁ c l₂ m hdeny
  induction l₁ with
  | nil =>
    intro sd mr
    simp only [List.nil_append]
    rw [evalAllGo_cons, evalAllGo_cons]
    have h2 : severity (Evaluator.evaluate_single_with_trace env config c).1 = 2 := by
      rw [hdeny]; rfl
    have hsd := severity_le_two sd
    split_ifs <;> first | rfl | omega
  | cons a l₁ ih =>
    intro sd mr
    simp only [List.cons_append]
    rw [evalAllGo_cons, evalAllGo_cons]
    split_ifs <;> first | rfl | exact ih _ _

/-- A rule allowing the program `a`. -/
def ruleAllowA : Rule :=
  ⟨some "a", [], false, none, none, [], [], none, .allow, none⟩

/-- A configuration whose only rule is `ruleAllowA`. -/
def cfgAllowA : Config :=
  ⟨⟨.prompt, false⟩, ⟨[], []⟩, [ruleAllowA], [], []⟩

/-- The `ParsedCommand` for the bare program `a`. -/
def pcA : ParsedCommand :=
  ⟨"a", "a", [], [], ∅, false, false, [], false, false⟩

/-- C3 counterexample: for the single command `a`, matched by an Allow rule,
the per-command result carries that rule, so the first command achieving the
strictest severity (Allow) is paired with `some ruleAllowA`; but the
aggregate keeps its initial `(Allow, none)` accumulator, which is only
replaced by a strictly stricter decision — so the aggregate is not the pair
of the first command achieving the strictest severity. -/
theorem strictest_claim_counterexample :
    Evaluator.evaluate_all_with_trace envTrivial cfgAllowA [pcA] = (.allow, none) ∧
    specAggregateClaim
        ([pcA].map (Evaluator.evaluate_single_with_trace envTrivial cfgAllowA)) =
      (.allow, some ruleAllowA) ∧
    some ruleAllowA ≠ (none : Option Rule) :=
  ⟨by decide, by decide, by decide⟩

/-- C3 (amended): the aggregate equals the first per-command result achieving
the strictest severity under Deny > Prompt > Allow, except that when the
strictest severity is Allow the matched rule is `none` (the initial
accumulator is kept); and the fold is insensitive to everything after the
first command whose decision is Deny. -/
theorem strictest_wins_amended (env : MatchEnv) (config : Config)
    (cmds : List ParsedCommand) :
    (Evaluator.evaluate_all_with_trace env config cmds =
      strictestSpec (cmds.map (Evaluator.evaluate_single_with_trace env config))) ∧
    (∀ l₁ c l₂ m, cmds = l₁ ++ c :: l₂ →
      (Evaluator.evaluate_single_with_trace env config c).1 = .deny m →
      Evaluator.evaluate_all_with_trace env config cmds =
        Evaluator.evaluate_all_with_trace env config (l₁ ++ [c])) := by
  constructor
  · rw [Evaluator.evaluate_all_with_trace, evalAllGo_spec, strictestSpec]
    set pairs := cmds.map (Evaluator.evaluate_single_with_trace env config) with hp
    by_cases h0 : maxSev pairs = 0
    · rw [if_pos (by omega), if_pos h0]
    · rw [if_neg (by simp [severity]; omega), if_neg h0]
      obtain ⟨q, hq⟩ := maxSev_find?_some pairs h0
      rw [hq]
      simp
  · intro l₁ c l₂ m hcmds hdeny
    subst hcmds
    rw [Evaluator.evaluate_all_with_trace, Evaluator.evaluate_all_with_trace]
    exact evalAllGo_deny_stop env config l₁ c l₂ m hdeny .allow none


/-- The `ParsedCommand` for the bare program `allowed`. -/
def pcAllowedCmd : ParsedCommand :=
  ⟨"allowed", "allowed", [], [], ∅, false, false, [], false, false⟩

/-- The `ParsedCommand` for the bare program `blocked`. -/
def pcBlockedCmd : ParsedCommand :=
  ⟨"blocked", "blocked", [], [], ∅, false, false, [], false, false⟩

/-- Witness for C3 (amended): with the deny rule on `blocked`, the list
`[allowed, blocked, git status]` aggregates identically to its truncation at
the denied command, and the aggregate equals the specification-side
strictest-first result. -/
theorem strictest_wins_amended_witness :
    Evaluator.evaluate_all_with_trace envTrivial cfgBlockedOnly
        [pcAllowedCmd, pcBlockedCmd, pcGitStatus] =
      Evaluator.evaluate_all_with_trace envTrivial cfgBlockedOnly
        [pcAllowedCmd, pcBlockedCmd] ∧
    Evaluator.evaluate_all_with_trace envTrivial cfgBlockedOnly
        [pcAllowedCmd, pcBlockedCmd, pcGitStatus] =
      strictestSpec ([pcAllowedCmd, pcBlockedCmd, pcGitStatus].map
        (Evaluator.evaluate_single_with_trace envTrivial cfgBlockedOnly)) := by
  constructor
  · exact (strictest_wins_amended envTrivial cfgBlockedOnly
      [pcAllowedCmd, pcBlockedCmd, pcGitStatus]).2
      [pcAllowedCmd] pcBlockedCmd [pcGitStatus] "Blocked by rule" rfl (by decide)
  · exact (strictest_wins_amended envTrivial cfgBlockedOnly
      [pcAllowedCmd, pcBlockedCmd, pcGitStatus]).1


/-- When the collected words are empty, no command is emitted. -/
theorem extract_simple_none (input : String) (sc : SimpleCommand) (b : Bool)
    (h : collectedWords sc = []) :
    extract_simple_command input sc b = none := by
  simp [extract_simple_command, h]

/-- When a first collected word exists, a command is emitted and its program
is that word. -/
theorem extract_simple_some (input : String) (sc : SimpleCommand) (b : Bool)
    (w : String) (ws : List String) (h : collectedWords sc = w :: ws) :
    ∃ pc, extract_simple_command input sc b = some pc ∧ pc.program = w := by
  unfold extract_simple_command
  rw [h]
  exact ⟨_, rfl, rfl⟩

/-- The programs extracted from a pipeline stage list do not depend on the
piped flag (only the `is_piped` field of each record does). -/
theorem extractSeq_map_program_indep (input : String) (b b' : Bool) :
    ∀ seq : List Command,
      (extractSeq input b seq).map (fun pc => pc.program) =
        (extractSeq input b' seq).map (fun pc => pc.program) := by
  intro seq
  induction seq with
  | nil => rfl
  | cons c cs ih =>
    simp only [extractSeq, List.map_append, ih]
    congr 1
    cases c with
    | simple sc =>
      cases hw : collectedWords sc with
      | nil =>
        rw [extract_from_command, extract_from_command,
          extract_simple_none input sc b hw, extract_simple_none input sc b' hw]
      | cons w ws =>
        obtain ⟨pc, hpc, hw1⟩ := extract_simple_some input sc b w ws hw
        obtain ⟨pc2, hpc2, hw2⟩ := extract_simple_some input sc b' w ws hw
        rw [extract_from_command, extract_from_command, hpc, hpc2]
        simp [hw1, hw2]
    | compound cc => rfl
    | extendedTest => rfl
    | functionDefinition => rfl

/-- Unfolding lemma: `extractItems` on the empty item list. -/
theorem extractItems_nil (input : String) : extractItems input [] = [] := by
  rw [extractItems]

/-- Unfolding lemma: `extractItems` on a cons. -/
theorem extractItems_cons (input : String) (a : AndOrList) (t : List AndOrList) :
    extractItems input (a :: t) =
      extract_from_and_or_list input a ++ extractItems input t := by
  rw [extractItems]

/-- Unfolding lemma: `extract_from_and_or_list` on a constructor. -/
theorem exAOL_mk (input : String) (fp : Pipeline) (add : List AndOr) :
    extract_from_and_or_list input (.mk fp add) =
      extract_from_pipeline input fp ++ extractAdditional input add := by
  rw [extract_from_and_or_list]

/-- Unfolding lemma: `extractAdditional` on the empty list. -/
theorem extractAdditional_nil (input : String) : extractAdditional input [] = [] := by
  rw [extractAdditional]

/-- Unfolding lemma: `extractAdditional` on an `&&`-joined pipeline. -/
theorem extractAdditional_consAnd (input : String) (p : Pipeline) (rest : List AndOr) :
    extractAdditional input (.andOp p :: rest) =
      extract_from_pipeline input p ++ extractAdditional input rest := by
  rw [extractAdditional]

/-- Unfolding lemma: `extractAdditional` on a `||`-joined pipeline. -/
theorem extractAdditional_consOr (input : String) (p : Pipeline) (rest : List AndOr) :
    extractAdditional input (.orOp p :: rest) =
      extract_from_pipeline input p ++ extractAdditional input rest := by
  rw [extractAdditional]

/-- Unfolding lemma: `extract_from_pipeline` on a constructor. -/
theorem extract_from_pipeline_mk (input : String) (seq : List Command) :
    extract_from_pipeline input (.mk seq) =
      extractSeq input (decide (seq.length > 1)) seq := by
  rw [extract_from_pipeline]

/-- Unfolding lemma: `extractSeq` on the empty list. -/
theorem extractSeq_nil (input : String) (b : Bool) : extractSeq input b [] = [] := by
  rw [extractSeq]

/-- Unfolding lemma: `extractSeq` on a cons. -/
theorem extractSeq_cons (input : String) (b : Bool) (c : Command)
    (cs : List Command) :
    extractSeq input b (c :: cs) =
      extract_from_command input b c ++ extractSeq input b cs := by
  rw [extractSeq]

/-- The programs extracted from a simple command with a first word `w` are
exactly `[w]`. -/
theorem extract_from_command_simple_prog (input : String) (b : Bool)
    (sc : SimpleCommand) (w : String) (ws : List String)
    (h : collectedWords sc = w :: ws) :
    (extract_from_command input b (.simple sc)).map (fun pc => pc.program) = [w] := by
  obtain ⟨pc, hpc, hprog⟩ := extract_simple_some input sc b w ws h
  rw [extract_from_command, hpc]
  simp [hprog]

/-- The programs extracted from a one-pipeline, one-stage and-or list built
from a simple command with first word `w` are exactly `[w]`. -/
theorem exAOL_single_prog (input : String) (sc : SimpleCommand) (w : String)
    (ws : List String) (h : collectedWords sc = w :: ws) :
    (extract_from_and_or_list input (.mk (.mk [.simple sc]) [])).map
      (fun pc => pc.program) = [w] := by
  rw [exAOL_mk, extract_from_pipeline_mk,
    show (decide (([Command.simple sc] : List Command).length > 1)) = false from rfl,
    extractSeq_cons, extractSeq_nil, extractAdditional_nil]
  simp [extract_from_command_simple_prog input false sc w ws h]

/-- Extraction over the AST built for a flat compound expression produces one
program per simple command, in left-to-right source order. -/
theorem buildExtract (input : String) :
    ∀ (rest : List (Joiner × SimpleCommand)) (first : SimpleCommand),
      (∀ sc ∈ flatCommands first rest, collectedWords sc ≠ []) →
      (extractItems input ((build first rest).1 :: (build first rest).2)).map
          (fun pc => pc.program) =
        (flatCommands first rest).map (fun sc => (collectedWords sc).headD "") := by
  intro rest
  induction rest with
  | nil =>
    intro first h
    have hf := h first (by simp [flatCommands])
    cases hw : collectedWords first with
    | nil => exact absurd hw hf
    | cons w ws =>
      rw [show build first [] =
        (AndOrList.mk (Pipeline.mk [Command.simple first]) [], []) from by rw [build]]
      dsimp only
      rw [extractItems_cons, extractItems_nil, List.append_nil,
        exAOL_single_prog input first w ws hw]
      simp [flatCommands, hw]
  | cons jc rest ih =>
    rcases jc with ⟨j, c2⟩
    intro first h
    have hf : collectedWords first ≠ [] := h first (by simp [flatCommands])
    have hrest : ∀ sc ∈ flatCommands c2 rest, collectedWords sc ≠ [] := by
      intro sc hsc
      apply h
      simp only [flatCommands, List.map_cons, List.mem_cons] at hsc ⊢
      exact Or.inr hsc
    have IH := ih c2 hrest
    cases hw : collectedWords first with
    | nil => exact absurd hw hf
    | cons w ws =>
    cases j with
    | semicolon =>
      rw [show build first ((Joiner.semicolon, c2) :: rest) =
        (AndOrList.mk (Pipeline.mk [Command.simple first]) [],
          (build c2 rest).1 :: (build c2 rest).2) from by rw [build]]
      dsimp only
      rw [extractItems_cons, List.map_append, exAOL_single_prog input first w ws hw, IH]
      simp [flatCommands, hw]
    | andThen =>
      rcases hb : build c2 rest with ⟨h1, t⟩
      rcases h1 with ⟨hfp, hadd⟩
      rcases hfp with ⟨hseq⟩
      rw [hb] at IH
      dsimp only at IH
      rw [extractItems_cons, exAOL_mk, extract_from_pipeline_mk] at IH
      rw [show build first ((Joiner.andThen, c2) :: rest) =
        (prependAnd first (build c2 rest).1, (build c2 rest).2) from by rw [build], hb]
      dsimp only
      rw [show prependAnd first (AndOrList.mk (Pipeline.mk hseq) hadd) =
        AndOrList.mk (Pipeline.mk [Command.simple first])
          (AndOr.andOp (Pipeline.mk hseq) :: hadd) from rfl]
      rw [extractItems_cons, exAOL_mk, extractAdditional_consAnd,
        extract_from_pipeline_mk (input) ([Command.simple first]),
        show (decide (([Command.simple first] : List Command).length > 1)) = false from rfl,
        extractSeq_cons, extractSeq_nil, List.append_nil, extract_from_pipeline_mk]
      simp only [List.map_append, List.append_assoc,
        extract_from_command_simple_prog input false first w ws hw] at IH ⊢
      rw [IH]
      simp [flatCommands, hw]
    | orElse =>
      rcases hb : build c2 rest with ⟨h1, t⟩
      rcases h1 with ⟨hfp, hadd⟩
      rcases hfp with ⟨hseq⟩
      rw [hb] at IH
      dsimp only at IH
      rw [extractItems_cons, exAOL_mk, extract_from_pipeline_mk] at IH
      rw [show build first ((Joiner.orElse, c2) :: rest) =
        (prependOr first (build c2 rest).1, (build c2 rest).2) from by rw [build], hb]
      dsimp only
      rw [show prependOr first (AndOrList.mk (Pipeline.mk hseq) hadd) =
        AndOrList.mk (Pipeline.mk [Command.simple first])
          (AndOr.orOp (Pipeline.mk hseq) :: hadd) from rfl]
      rw [extractItems_cons, exAOL_mk, extractAdditional_consOr,
        extract_from_pipeline_mk (input) ([Command.simple first]),
        show (decide (([Command.simple first] : List Command).length > 1)) = false from rfl,
        extractSeq_cons, extractSeq_nil, List.append_nil, extract_from_pipeline_mk]
      simp only [List.map_append, List.append_assoc,
        extract_from_command_simple_prog input false first w ws hw] at IH ⊢
      rw [IH]
      simp [flatCommands, hw]
    | pipe =>
      rcases hb : build c2 rest with ⟨h1, t⟩
      rcases h1 with ⟨hfp, hadd⟩
      rcases hfp with ⟨hseq⟩
      rw [hb] at IH
      dsimp only at IH
      rw [extractItems_cons, exAOL_mk, extract_from_pipeline_mk] at IH
      rw [show build first ((Joiner.pipe, c2) :: rest) =
        (prependPipe first (build c2 rest).1, (build c2 rest).2) from by rw [build], hb]
      dsimp only
      rw [show prependPipe first (AndOrList.mk (Pipeline.mk hseq) hadd) =
        AndOrList.mk (Pipeline.mk (Command.simple first :: hseq)) hadd from rfl]
      rw [extractItems_cons, exAOL_mk, extract_from_pipeline_mk, extractSeq_cons]
      simp only [List.map_append, List.append_assoc] at IH ⊢
      rw [extract_from_command_simple_prog input
        (decide ((Command.simple first :: hseq).length > 1)) first w ws hw]
      rw [extractSeq_map_program_indep input
        (decide ((Command.simple first :: hseq).length > 1))
        (decide (hseq.length > 1)) hseq]
      rw [IH]
      simp [flatCommands, hw]


/-- C2: a flat compound expression of N simple commands joined solely by
`|`, `&&`, `||`, `;` (each with a program word) parses to an `ok` list of
exactly N `ParsedCommand` records whose programs are the N commands' first
words in left-to-right source order. -/
theorem flat_extraction_complete (input : String) (first : SimpleCommand)
    (rest : List (Joiner × SimpleCommand))
    (h : ∀ sc ∈ flatCommands first rest, collectedWords sc ≠ []) :
    ∃ l, parse_with_brush input (toProgram first rest) = .ok l ∧
      l.map (fun pc => pc.program) =
        (flatCommands first rest).map (fun sc => (collectedWords sc).headD "") ∧
      l.length = (flatCommands first rest).length := by
  have hb := buildExtract input rest first h
  have hres : extractCompleteCommands input (toProgram first rest) =
      extractItems input ((build first rest).1 :: (build first rest).2) := by
    rw [toProgram, extractCompleteCommands, extractCompleteCommands,
      List.append_nil, extract_from_compound_list]
  refine ⟨extractCompleteCommands input (toProgram first rest), ?_, ?_, ?_⟩
  · have hne : extractCompleteCommands input (toProgram first rest) ≠ [] := by
      intro h0
      rw [hres] at h0
      rw [h0] at hb
      exact absurd hb.symm (by simp [flatCommands])
    rw [parse_with_brush]
    simp [List.isEmpty_iff, hne]
  · rw [hres]
    exact hb
  · have := congrArg List.length (hres ▸ hb)
    simpa using this

/-- The simple command `cmd1`. -/
def scCmd1 : SimpleCommand := ⟨none, some "cmd1", none⟩

/-- The simple command `cmd2`. -/
def scCmd2 : SimpleCommand := ⟨none, some "cmd2", none⟩

/-- The simple command `cmd3`. -/
def scCmd3 : SimpleCommand := ⟨none, some "cmd3", none⟩

/-- The simple command `cmd4`. -/
def scCmd4 : SimpleCommand := ⟨none, some "cmd4", none⟩

/-- Witness for C2: `cmd1 && cmd2 | cmd3 || cmd4` yields exactly the four
records `[cmd1, cmd2, cmd3, cmd4]`. -/
theorem flat_extraction_complete_witness :
    ∃ l, parse_with_brush "cmd1 && cmd2 | cmd3 || cmd4"
        (toProgram scCmd1 [(.andThen, scCmd2), (.pipe, scCmd3), (.orElse, scCmd4)]) =
        .ok l ∧
      l.map (fun pc => pc.program) = ["cmd1", "cmd2", "cmd3", "cmd4"] ∧
      l.length = 4 := by
  obtain ⟨l, h1, h2, h3⟩ := flat_extraction_complete "cmd1 && cmd2 | cmd3 || cmd4"
    scCmd1 [(.andThen, scCmd2), (.pipe, scCmd3), (.orElse, scCmd4)] (by decide)
  refine ⟨l, h1, ?_, ?_⟩
  · rw [h2]; decide
  · rw [h3]; decide

end Bashguard
